import Mathlib

/-!
# Forge mind map: radial layout and render pipeline

A shallow embedding of `src/frontend/app.js`:
`calculateNodePositions` / `traverse` (the radial layout) and
`renderMindMap` / `renderConnections` / `renderNodes` (the render pipeline).

Numbers are kept abstract: the layout is written over any field `α`, and the
functions of the JavaScript `Math` object it calls (`Math.cos`, `Math.sin`,
`Math.PI`, `Math.sqrt`, `Math.atan2`) are parameters.  The numerical theorems
instantiate them with the real functions.
-/

namespace Forge

/-! ## Data model -/

/-- A node of the tree delivered by the generation service: `text` and the
ordered `children`.  A node whose `children` field is missing or empty takes
the same branch of the guard in `traverse`; both are the empty list here. -/
inductive TreeNode where
  | mk (text : String) (children : List TreeNode) : TreeNode

/-- Field `text` of a tree node. -/
def TreeNode.text : TreeNode → String
  | .mk t _ => t

/-- Field `children` of a tree node. -/
def TreeNode.children : TreeNode → List TreeNode
  | .mk _ cs => cs

/-- The object literal `pos` built in `traverse`:
`{ node, x, y, level, parent }`, where `parent` is `null` (here `none`) or the
`pos` object of the parent.  No `pos` object is modified once built, so the
reference to the parent is kept as the parent's value. -/
inductive PositionedNode (α : Type) where
  | mk (node : TreeNode) (x y : α) (level : Nat)
      (parent : Option (PositionedNode α)) : PositionedNode α

namespace PositionedNode

variable {α : Type}

/-- Field `node`. -/
def node : PositionedNode α → TreeNode
  | .mk n _ _ _ _ => n

/-- Field `x`. -/
def x : PositionedNode α → α
  | .mk _ x _ _ _ => x

/-- Field `y`. -/
def y : PositionedNode α → α
  | .mk _ _ y _ _ => y

/-- Field `level`. -/
def level : PositionedNode α → Nat
  | .mk _ _ _ l _ => l

/-- Field `parent`. -/
def parent : PositionedNode α → Option (PositionedNode α)
  | .mk _ _ _ _ p => p

end PositionedNode

/-- An error object thrown by JavaScript code, told apart by its `name`
(`"TypeError"` for the one the runtime throws when a property of `null` or
`undefined` is read). -/
structure JsError where
  name : String
  deriving DecidableEq, Repr

/-! ## Radial layout -/

section Layout

variable {α : Type} [Field α]

/-- The expression `(Math.PI * 2) / childCount` of `traverse`. -/
def angleStep (pi : α) (childCount : Nat) : α :=
  (pi * 2) / (childCount : α)

/-- The expression
`angle + (index - (childCount - 1) / 2) * angleStep` of `traverse`. -/
def childAngle (pi angle : α) (index childCount : Nat) : α :=
  angle + ((index : α) - ((childCount : α) - 1) / 2) * angleStep pi childCount

mutual

/-- The inner function `traverse(node, x, y, angle, radius, level, parent)`.
The array `positions` it pushes to is passed in and returned. -/
def traverse (cos sin : α → α) (pi : α) (node : TreeNode) (x y angle radius : α)
    (level : Nat) (parent : Option (PositionedNode α))
    (positions : List (PositionedNode α)) : List (PositionedNode α) :=
  match node with
  | .mk text children =>
    let pos : PositionedNode α := .mk (.mk text children) x y level parent
    let positions := positions ++ [pos]
    if 0 < children.length then
      let childCount := children.length
      let nextRadius := radius * 0.7
      forEachChild cos sin pi children 0 childCount x y angle radius nextRadius
        level pos positions
    else
      positions

/-- The loop `node.children.forEach((child, index) => ...)` of `traverse`,
from `index` on; `rest` are the children not yet visited. -/
def forEachChild (cos sin : α → α) (pi : α) (rest : List TreeNode) (index : Nat)
    (childCount : Nat) (x y angle radius nextRadius : α) (level : Nat)
    (pos : PositionedNode α) (positions : List (PositionedNode α)) :
    List (PositionedNode α) :=
  match rest with
  | [] => positions
  | child :: rest =>
    let childAngle := childAngle pi angle index childCount
    let childX := x + cos childAngle * radius
    let childY := y + sin childAngle * radius
    let positions :=
      traverse cos sin pi child childX childY childAngle nextRadius (level + 1)
        (some pos) positions
    forEachChild cos sin pi rest (index + 1) childCount x y angle radius
      nextRadius level pos positions

end

/-- The function `calculateNodePositions(rootNode)`.  `width` and `height` are
the `clientWidth` and `clientHeight` it reads from the container.  For an
absent root (`null` or `undefined`) nothing checks the argument: the first
`traverse` call pushes its entry and then reads `node.children` of the absent
root, at which the runtime throws its `TypeError`; the array is then lost. -/
def calculateNodePositions (cos sin : α → α) (pi : α) (rootNode : Option TreeNode)
    (width height : α) : Except JsError (List (PositionedNode α)) :=
  let rootX := width / 2
  let rootY := height / 2
  match rootNode with
  | none => .error { name := "TypeError" }
  | some root => .ok (traverse cos sin pi root rootX rootY 0 200 0 none [])

end Layout

/-! ## Render pipeline -/

/-- An element appended to `mindmapDiv`: a `div.connection` with its `width`,
`left`, `top` and `rotate(..rad)` transform, or a `div.node.level-<level>`
with its `textContent`, `left`, `top` and the tree node its click handler
holds. -/
inductive Element (α : Type) where
  | connection (width left top rotate : α) : Element α
  | node (level : Nat) (textContent : String) (left top : α)
      (clicked : TreeNode) : Element α

/-- A mutation of `mindmapDiv`. -/
inductive SurfaceCall (α : Type) where
  /-- The assignment `mindmapDiv.innerHTML = ''`. -/
  | clear : SurfaceCall α
  /-- The call `mindmapDiv.appendChild(element)`. -/
  | appendChild (element : Element α) : SurfaceCall α

/-- The drawing surface `mindmapDiv`: its current child elements, and the
record of the mutations made to it so far. -/
structure Surface (α : Type) where
  children : List (Element α)
  calls : List (SurfaceCall α)

namespace Surface

variable {α : Type}

/-- The assignment `mindmapDiv.innerHTML = ''`: all children are removed. -/
def clear (mindmapDiv : Surface α) : Surface α :=
  { children := [], calls := mindmapDiv.calls ++ [SurfaceCall.clear] }

/-- The call `mindmapDiv.appendChild(element)`. -/
def appendChild (mindmapDiv : Surface α) (element : Element α) : Surface α :=
  { children := mindmapDiv.children ++ [element],
    calls := mindmapDiv.calls ++ [SurfaceCall.appendChild element] }

end Surface

section Render

variable {α : Type} [Field α]

/-- The `div.connection` that `renderConnections` builds for an entry `pos`
whose `parent` is present. -/
def connection (sqrt : α → α) (atan2 : α → α → α) (pos parent : PositionedNode α) :
    Element α :=
  let dx := pos.x - parent.x
  let dy := pos.y - parent.y
  let distance := sqrt (dx * dx + dy * dy)
  let angle := atan2 dy dx
  .connection distance parent.x parent.y angle

/-- The function `renderConnections(positions)`. -/
def renderConnections (sqrt : α → α) (atan2 : α → α → α)
    (positions : List (PositionedNode α)) (mindmapDiv : Surface α) : Surface α :=
  positions.foldl
    (fun mindmapDiv pos =>
      match pos.parent with
      | some parent => mindmapDiv.appendChild (connection sqrt atan2 pos parent)
      | none => mindmapDiv)
    mindmapDiv

/-- The `div.node` that `renderNodes` builds for an entry `pos`. -/
def nodeElement (pos : PositionedNode α) : Element α :=
  .node pos.level pos.node.text pos.x pos.y pos.node

/-- The function `renderNodes(positions)`. -/
def renderNodes (positions : List (PositionedNode α)) (mindmapDiv : Surface α) :
    Surface α :=
  positions.foldl (fun mindmapDiv pos => mindmapDiv.appendChild (nodeElement pos))
    mindmapDiv

/-- The function `renderMindMap(rootNode)`: returns the surface after the call
and the error raised, if any. -/
def renderMindMap (cos sin : α → α) (pi : α) (sqrt : α → α) (atan2 : α → α → α)
    (rootNode : Option TreeNode) (width height : α) (mindmapDiv : Surface α) :
    Surface α × Option JsError :=
  let mindmapDiv := mindmapDiv.clear
  match calculateNodePositions cos sin pi rootNode width height with
  | .error e => (mindmapDiv, some e)
  | .ok positions =>
    let mindmapDiv := renderConnections sqrt atan2 positions mindmapDiv
    let mindmapDiv := renderNodes positions mindmapDiv
    (mindmapDiv, none)

end Render

/-! ## Reference notions on trees

These are not part of the program: they say what "pre-order", "number of
nodes", "the node at a path" and "position in pre-order" mean, so that the
layout can be compared with them. -/

mutual

/-- Number of nodes of a tree. -/
def TreeNode.size : TreeNode → Nat
  | .mk _ cs => 1 + sizeList cs

/-- Number of nodes of a forest. -/
def sizeList : List TreeNode → Nat
  | [] => 0
  | c :: cs => c.size + sizeList cs

end

mutual

/-- Pre-order traversal: a node, then the traversals of its children in
source order. -/
def TreeNode.preorder : TreeNode → List TreeNode
  | .mk t cs => .mk t cs :: preorderList cs

/-- Pre-order traversal of a forest. -/
def preorderList : List TreeNode → List TreeNode
  | [] => []
  | c :: cs => c.preorder ++ preorderList cs

end

/-- The node reached from `t` by following the child indices of `path`. -/
def TreeNode.subtreeAt : TreeNode → List Nat → Option TreeNode
  | t, [] => some t
  | t, i :: path =>
    match t.children[i]? with
    | none => none
    | some c => c.subtreeAt path

/-- The position in pre-order of the node reached from `t` by `path`: a child
comes after its parent and after all nodes of its elder siblings. -/
def TreeNode.preIndex : TreeNode → List Nat → Option Nat
  | _, [] => some 0
  | t, i :: path =>
    match t.children[i]? with
    | none => none
    | some c =>
      (c.preIndex path).map (fun k => 1 + sizeList (t.children.take i) + k)

open PositionedNode

/-! ## Auxiliary lemmas -/

/-- Simultaneous induction on trees and forests. -/
theorem TreeNode.both {P : TreeNode → Prop} {Q : List TreeNode → Prop}
    (hmk : ∀ t cs, Q cs → P (.mk t cs)) (hnil : Q [])
    (hcons : ∀ c cs, P c → Q cs → Q (c :: cs)) :
    (∀ t, P t) ∧ (∀ cs, Q cs) :=
  ⟨fun t => TreeNode.rec (motive_1 := P) (motive_2 := Q) hmk hnil hcons t,
   fun cs => TreeNode.rec_1 (motive_1 := P) (motive_2 := Q) hmk hnil hcons cs⟩

section Structure

variable {α : Type} [Field α] (cos sin : α → α) (pi : α)

/-- A call, and a loop, only push: the array passed in is a prefix of the array
returned, and what is pushed does not depend on it. -/
theorem traverse_forEachChild_append :
    (∀ (node : TreeNode) (x y angle radius : α) (level : Nat) parent positions,
      traverse cos sin pi node x y angle radius level parent positions
        = positions ++ traverse cos sin pi node x y angle radius level parent []) ∧
    (∀ (rest : List TreeNode) index childCount (x y angle radius nextRadius : α)
        (level : Nat) pos positions,
      forEachChild cos sin pi rest index childCount x y angle radius nextRadius level
          pos positions
        = positions ++ forEachChild cos sin pi rest index childCount x y angle radius
            nextRadius level pos []) := by
  apply TreeNode.both
  · intro t cs ih x y angle radius level parent positions
    simp only [traverse]
    split
    · simp only [List.nil_append]
      rw [ih, ih _ _ _ _ _ _ _ _ _ [_]]
      simp
    · simp
  · intros; simp [forEachChild]
  · intro c cs ihc ihcs index childCount x y angle radius nextRadius level pos positions
    simp only [forEachChild]
    rw [ihcs, ihc, ihcs _ _ _ _ _ _ _ _ _ (traverse _ _ _ _ _ _ _ _ _ _ [])]
    simp

/-- One call of `traverse` on an empty array: the entry of the node, then what
the loop over its children pushes. -/
theorem traverse_nil (t : String) (cs : List TreeNode) (x y angle radius : α)
    (level : Nat) (parent : Option (PositionedNode α)) :
    traverse cos sin pi (.mk t cs) x y angle radius level parent []
      = .mk (.mk t cs) x y level parent ::
          forEachChild cos sin pi cs 0 cs.length x y angle radius (radius * 0.7) level
            (.mk (.mk t cs) x y level parent) [] := by
  simp only [traverse]
  split
  · rw [(traverse_forEachChild_append cos sin pi).2]; simp
  · have : cs = [] := by
      cases cs with
      | nil => rfl
      | cons c cs => simp at *
    subst this
    simp [forEachChild]

/-- One round of the loop on an empty array: what the call for the child
pushes, then what the rest of the loop pushes. -/
theorem forEachChild_cons_nil (c : TreeNode) (rest : List TreeNode) (index childCount : Nat)
    (x y angle radius nextRadius : α) (level : Nat) (pos : PositionedNode α) :
    forEachChild cos sin pi (c :: rest) index childCount x y angle radius nextRadius
        level pos []
      = traverse cos sin pi c (x + cos (childAngle pi angle index childCount) * radius)
          (y + sin (childAngle pi angle index childCount) * radius)
          (childAngle pi angle index childCount) nextRadius (level + 1) (some pos) []
        ++ forEachChild cos sin pi rest (index + 1) childCount x y angle radius
            nextRadius level pos [] := by
  simp only [forEachChild]
  rw [(traverse_forEachChild_append cos sin pi).2]

/-- The `node` fields of what a call pushes are the pre-order traversal of its
node; those of what a loop pushes are the pre-order traversal of the children
it visits. -/
theorem map_node_traverse_forEachChild :
    (∀ (node : TreeNode) (x y angle radius : α) (level : Nat) parent,
      (traverse cos sin pi node x y angle radius level parent []).map PositionedNode.node
        = node.preorder) ∧
    (∀ (rest : List TreeNode) index childCount (x y angle radius nextRadius : α)
        (level : Nat) pos,
      (forEachChild cos sin pi rest index childCount x y angle radius nextRadius level
          pos []).map PositionedNode.node = preorderList rest) := by
  apply TreeNode.both
  · intro t cs ih x y angle radius level parent
    rw [traverse_nil, List.map_cons, ih]
    simp [TreeNode.preorder, PositionedNode.node]
  · intros; simp [forEachChild, preorderList]
  · intro c cs ihc ihcs index childCount x y angle radius nextRadius level pos
    rw [forEachChild_cons_nil, List.map_append, ihc, ihcs]
    simp [preorderList]

/-- A pre-order traversal lists as many nodes as there are. -/
theorem length_preorder_preorderList :
    (∀ t : TreeNode, t.preorder.length = t.size) ∧
    (∀ cs : List TreeNode, (preorderList cs).length = sizeList cs) := by
  apply TreeNode.both
  · intro t cs ih
    simp [TreeNode.preorder, TreeNode.size, ih, Nat.add_comm]
  · simp [preorderList, sizeList]
  · intro c cs ihc ihcs
    simp [preorderList, sizeList, ihc, ihcs]

/-- A call pushes one entry per node of its tree. -/
theorem length_traverse (node : TreeNode) (x y angle radius : α) (level : Nat)
    (parent : Option (PositionedNode α)) :
    (traverse cos sin pi node x y angle radius level parent []).length = node.size := by
  rw [← length_preorder_preorderList.1, ← (map_node_traverse_forEachChild cos sin pi).1 node
    x y angle radius level parent, List.length_map]

end Structure

section Structure2

variable {α : Type} [Field α] (cos sin : α → α) (pi : α)

/-- What the loop pushes splits around the block of the child at position `i`:
the block starts after the nodes of the elder siblings. -/
theorem forEachChild_split (rest : List TreeNode) :
    ∀ (i : Nat) (c : TreeNode), rest[i]? = some c →
    ∀ (index childCount : Nat) (x y angle radius nextRadius : α) (level : Nat)
      (pos : PositionedNode α),
      ∃ A B, forEachChild cos sin pi rest index childCount x y angle radius nextRadius
          level pos []
        = A ++ traverse cos sin pi c
            (x + cos (childAngle pi angle (index + i) childCount) * radius)
            (y + sin (childAngle pi angle (index + i) childCount) * radius)
            (childAngle pi angle (index + i) childCount) nextRadius (level + 1)
            (some pos) [] ++ B
        ∧ A.length = sizeList (rest.take i) := by
  induction rest with
  | nil => intro i c h; simp at h
  | cons c0 rest ih =>
    intro i c h index childCount x y angle radius nextRadius level pos
    cases i with
    | zero =>
      simp at h
      subst h
      refine ⟨[], forEachChild cos sin pi rest (index + 1) childCount x y angle radius
        nextRadius level pos [], ?_, ?_⟩
      · rw [forEachChild_cons_nil]; simp
      · simp [sizeList]
    | succ i =>
      simp at h
      obtain ⟨A, B, hAB, hA⟩ := ih i c h (index + 1) childCount x y angle radius
        nextRadius level pos
      have hidx : index + 1 + i = index + (i + 1) := by omega
      rw [hidx] at hAB
      refine ⟨traverse cos sin pi c0
            (x + cos (childAngle pi angle index childCount) * radius)
            (y + sin (childAngle pi angle index childCount) * radius)
            (childAngle pi angle index childCount) nextRadius (level + 1)
            (some pos) [] ++ A, B, ?_, ?_⟩
      · rw [forEachChild_cons_nil, hAB]; simp
      · simp [sizeList, length_traverse, hA]

/-- The entry of the node at a path: it sits at the node's position in
pre-order, holds the node, has the depth of the path added to the level of the
call, and its `parent` is the entry of the node one step up the path. -/
theorem traverse_path (path : List Nat) :
    ∀ (node sub : TreeNode) (x y angle radius : α) (level : Nat)
      (parent : Option (PositionedNode α)),
      node.subtreeAt path = some sub →
      ∃ k e, node.preIndex path = some k ∧
        (traverse cos sin pi node x y angle radius level parent [])[k]? = some e ∧
        e.node = sub ∧ e.level = level + path.length ∧
        (path = [] → e.parent = parent) ∧
        (path ≠ [] → ∃ k1 q, node.preIndex path.dropLast = some k1 ∧
          (traverse cos sin pi node x y angle radius level parent [])[k1]? = some q ∧
          e.parent = some q) := by
  induction path with
  | nil =>
    intro node sub x y angle radius level parent h
    cases node with
    | mk t cs =>
      simp [TreeNode.subtreeAt] at h
      subst h
      refine ⟨0, .mk (.mk t cs) x y level parent, rfl, ?_, rfl, rfl, fun _ => rfl, ?_⟩
      · rw [traverse_nil]; simp
      · intro h; exact absurd rfl h
  | cons i path ih =>
    intro node sub x y angle radius level parent h
    cases node with
    | mk t cs =>
      simp only [TreeNode.subtreeAt, TreeNode.children] at h
      cases hc : cs[i]? with
      | none => rw [hc] at h; simp at h
      | some c =>
        rw [hc] at h
        simp only at h
        obtain ⟨A, B, hAB, hA⟩ := forEachChild_split cos sin pi cs i c hc 0 cs.length
          x y angle radius (radius * 0.7) level (.mk (.mk t cs) x y level parent)
        obtain ⟨k, e, hk, he, hnode, hlevel, hnil, hcons⟩ :=
          ih c sub _ _ _ (radius * 0.7) (level + 1)
            (some (.mk (.mk t cs) x y level parent)) h
        rw [traverse_nil, hAB]
        have hget : ∀ j v, (traverse cos sin pi c
            (x + cos (childAngle pi angle (0 + i) cs.length) * radius)
            (y + sin (childAngle pi angle (0 + i) cs.length) * radius)
            (childAngle pi angle (0 + i) cs.length) (radius * 0.7) (level + 1)
            (some (.mk (.mk t cs) x y level parent)) [])[j]? = some v →
            (PositionedNode.mk (.mk t cs) x y level parent :: (A ++ traverse cos sin pi c
            (x + cos (childAngle pi angle (0 + i) cs.length) * radius)
            (y + sin (childAngle pi angle (0 + i) cs.length) * radius)
            (childAngle pi angle (0 + i) cs.length) (radius * 0.7) (level + 1)
            (some (.mk (.mk t cs) x y level parent)) [] ++ B))[1 + sizeList (cs.take i) + j]?
              = some v := by
          intro j v hj
          have h1 : 1 + sizeList (cs.take i) + j = (A.length + j) + 1 := by omega
          rw [h1, List.getElem?_cons_succ, List.append_assoc,
            List.getElem?_append_right (by omega)]
          have h2 : A.length + j - A.length = j := by omega
          rw [h2, List.getElem?_append_left]
          · exact hj
          · exact (List.getElem?_eq_some.1 hj).1
        refine ⟨1 + sizeList (cs.take i) + k, e, ?_, hget k e he, hnode, ?_, ?_, ?_⟩
        · simp [TreeNode.preIndex, TreeNode.children, hc, hk]
        · rw [hlevel]; simp; omega
        · intro h; simp at h
        · intro _
          by_cases hp : path = []
          · subst hp
            refine ⟨0, .mk (.mk t cs) x y level parent, ?_, by simp, hnil rfl⟩
            simp [TreeNode.preIndex]
          · obtain ⟨k1, q, hk1, hq, hpar⟩ := hcons hp
            refine ⟨1 + sizeList (cs.take i) + k1, q, ?_, hget k1 q hq, hpar⟩
            rw [List.dropLast_cons_of_ne_nil hp]
            simp [TreeNode.preIndex, TreeNode.children, hc, hk1]

end Structure2

/-- Every position below the number of nodes is the pre-order position of the
node at some path. -/
theorem preIndex_surjective :
    (∀ (t : TreeNode) (k : Nat), k < t.size →
      ∃ path sub, t.subtreeAt path = some sub ∧ t.preIndex path = some k) ∧
    (∀ (cs : List TreeNode) (k : Nat), k < sizeList cs →
      ∃ i c path sub j, cs[i]? = some c ∧ c.subtreeAt path = some sub ∧
        c.preIndex path = some j ∧ k = sizeList (cs.take i) + j) := by
  apply TreeNode.both
  · intro t cs ih k hk
    cases k with
    | zero => exact ⟨[], .mk t cs, rfl, rfl⟩
    | succ k =>
      simp only [TreeNode.size] at hk
      obtain ⟨i, c, path, sub, j, hc, hsub, hj, hkj⟩ := ih k (by omega)
      refine ⟨i :: path, sub, ?_, ?_⟩
      · simp [TreeNode.subtreeAt, TreeNode.children, hc, hsub]
      · simp [TreeNode.preIndex, TreeNode.children, hc, hj]
        omega
  · intro k hk
    simp [sizeList] at hk
  · intro c cs ihc ihcs k hk
    simp only [sizeList] at hk
    by_cases h : k < c.size
    · obtain ⟨path, sub, hsub, hidx⟩ := ihc k h
      exact ⟨0, c, path, sub, k, by simp, hsub, hidx, by simp [sizeList]⟩
    · obtain ⟨i, d, path, sub, j, hd, hsub, hj, hkj⟩ := ihcs (k - c.size) (by omega)
      refine ⟨i + 1, d, path, sub, j, by simpa using hd, hsub, hj, ?_⟩
      simp [sizeList]
      omega

/-- The node one step up a non-empty path exists and has the node at the path
among its children. -/
theorem subtreeAt_dropLast (path : List Nat) :
    ∀ (t sub : TreeNode), path ≠ [] → t.subtreeAt path = some sub →
      ∃ (up : TreeNode) (i : Nat), t.subtreeAt path.dropLast = some up ∧ up.children[i]? = some sub := by
  induction path with
  | nil => intro t sub h; exact absurd rfl h
  | cons i path ih =>
    intro t sub _ h
    simp only [TreeNode.subtreeAt] at h
    cases hc : t.children[i]? with
    | none => rw [hc] at h; simp at h
    | some c =>
      rw [hc] at h
      simp only at h
      by_cases hp : path = []
      · subst hp
        simp [TreeNode.subtreeAt] at h
        subst h
        exact ⟨t, i, by simp [TreeNode.subtreeAt], hc⟩
      · obtain ⟨up, j, hup, hj⟩ := ih c sub hp h
        refine ⟨up, j, ?_, hj⟩
        rw [List.dropLast_cons_of_ne_nil hp]
        simp [TreeNode.subtreeAt, hc, hup]

section Structure3

variable {α : Type} [Field α] (cos sin : α → α) (pi : α)

/-- The entry at a non-empty path has as `parent` the entry of the node one
step up, which is one level lower and is not a leaf. -/
theorem traverse_path_parent (path : List Nat) (node sub : TreeNode)
    (x y angle radius : α) (level : Nat) (parent : Option (PositionedNode α))
    (hsub : node.subtreeAt path = some sub) (hne : path ≠ []) :
    ∃ k e k1 q, node.preIndex path = some k ∧
      (traverse cos sin pi node x y angle radius level parent [])[k]? = some e ∧
      e.node = sub ∧ e.level = level + path.length ∧
      node.preIndex path.dropLast = some k1 ∧
      (traverse cos sin pi node x y angle radius level parent [])[k1]? = some q ∧
      e.parent = some q ∧ node.subtreeAt path.dropLast = some q.node ∧
      q.level + 1 = e.level ∧ q.node.children ≠ [] ∧
      (∃ i : Nat, q.node.children[i]? = some e.node) := by
  obtain ⟨k, e, hk, he, hnode, hlevel, _, hcons⟩ :=
    traverse_path cos sin pi path node sub x y angle radius level parent hsub
  obtain ⟨k1, q, hk1, hq, hpar⟩ := hcons hne
  obtain ⟨up, i, hup, hi⟩ := subtreeAt_dropLast path node sub hne hsub
  obtain ⟨k2, q2, hk2, hq2, hnode2, hlevel2, _, _⟩ :=
    traverse_path cos sin pi path.dropLast node up x y angle radius level parent hup
  rw [hk1] at hk2
  cases hk2
  rw [hq] at hq2
  cases hq2
  refine ⟨k, e, k1, q, hk, he, hnode, hlevel, hk1, hq, hpar, ?_, ?_, ?_, ?_⟩
  · rw [hnode2]; exact hup
  · rw [hlevel, hlevel2, List.length_dropLast]
    have : 0 < path.length := List.length_pos.2 hne
    omega
  · rw [hnode2]
    intro h
    rw [h] at hi
    simp at hi
  · exact ⟨i, by rw [hnode2, hnode]; exact hi⟩

end Structure3

section Structure4

variable {α : Type} [Field α] (cos sin : α → α) (pi : α)

/-- Every entry after the first one of a call, and every entry a loop pushes,
has a `parent`. -/
theorem parent_isSome_traverse_forEachChild :
    (∀ (node : TreeNode) (x y angle radius : α) (level : Nat) parent,
      ∀ e ∈ (traverse cos sin pi node x y angle radius level parent []).tail,
        e.parent.isSome = true) ∧
    (∀ (rest : List TreeNode) index childCount (x y angle radius nextRadius : α)
        (level : Nat) pos,
      ∀ e ∈ forEachChild cos sin pi rest index childCount x y angle radius nextRadius
        level pos [], e.parent.isSome = true) := by
  apply TreeNode.both
  · intro t cs ih x y angle radius level parent e he
    rw [traverse_nil, List.tail_cons] at he
    exact ih _ _ _ _ _ _ _ _ _ e he
  · intro index childCount x y angle radius nextRadius level pos e he
    simp [forEachChild] at he
  · intro c cs ihc ihcs index childCount x y angle radius nextRadius level pos e he
    rw [forEachChild_cons_nil, List.mem_append] at he
    rcases he with he | he
    · cases c with
      | mk t ds =>
        have hc := ihc (x + cos (childAngle pi angle index childCount) * radius)
          (y + sin (childAngle pi angle index childCount) * radius)
          (childAngle pi angle index childCount) nextRadius (level + 1) (some pos) e
        rw [traverse_nil] at he hc
        rw [List.mem_cons] at he
        rcases he with he | he
        · subst he; rfl
        · exact hc he
    · exact ihcs _ _ _ _ _ _ _ _ _ e he

end Structure4

/-- C1: for every tree and every surface size, `calculateNodePositions` returns
a list with one entry per node of the tree, whose `node` fields in list order
are the pre-order traversal of the tree; the first entry is the root. -/
theorem calculateNodePositions_preorder {α : Type} [Field α] (cos sin : α → α) (pi : α)
    (root : TreeNode) (width height : α) :
    ∃ ps, calculateNodePositions cos sin pi (some root) width height = .ok ps ∧
      ps.length = root.size ∧
      ps.map PositionedNode.node = root.preorder ∧
      ps.head?.map PositionedNode.node = some root := by
  refine ⟨_, rfl, length_traverse cos sin pi root _ _ _ _ _ _,
    (map_node_traverse_forEachChild cos sin pi).1 root _ _ _ _ _ _, ?_⟩
  cases root with
  | mk t cs => rw [traverse_nil]; rfl

/-- C2: in the list `calculateNodePositions` returns, the node at every path of
the tree has its entry, at the node's pre-order position and with `level` the
depth of the node; conversely every entry is the entry of the node at some
path, the root entry has no `parent`, and the `parent` of any other entry is
the entry of the node's immediate parent, one level lower and not a leaf. -/
theorem calculateNodePositions_level_parent {α : Type} [Field α] (cos sin : α → α)
    (pi : α) (root : TreeNode) (width height : α) :
    ∃ ps, calculateNodePositions cos sin pi (some root) width height = .ok ps ∧
      (∃ e, ps[0]? = some e ∧ e.node = root ∧ e.level = 0 ∧ e.parent = none) ∧
      (∀ (path : List Nat) (sub : TreeNode), root.subtreeAt path = some sub →
        ∃ k e, root.preIndex path = some k ∧ ps[k]? = some e ∧ e.node = sub ∧
          e.level = path.length) ∧
      (∀ (k : Nat) (e : PositionedNode α), ps[k]? = some e →
        ∃ path, root.subtreeAt path = some e.node ∧ root.preIndex path = some k ∧
          e.level = path.length ∧
          (path = [] → e.parent = none) ∧
          (path ≠ [] → ∃ k1 q, root.preIndex path.dropLast = some k1 ∧
            ps[k1]? = some q ∧ e.parent = some q ∧
            root.subtreeAt path.dropLast = some q.node ∧
            (∃ i : Nat, q.node.children[i]? = some e.node) ∧
            q.level + 1 = e.level ∧ q.node.children ≠ [])) := by
  refine ⟨_, rfl, ?_, ?_, ?_⟩
  · cases root with
    | mk t cs =>
      rw [traverse_nil]
      exact ⟨.mk (.mk t cs) (width / 2) (height / 2) 0 none, by simp, rfl, rfl, rfl⟩
  · intro path sub hsub
    obtain ⟨k, e, hk, he, hnode, hlevel, _, _⟩ :=
      traverse_path cos sin pi path root sub (width / 2) (height / 2) 0 200 0 none hsub
    exact ⟨k, e, hk, he, hnode, by simpa using hlevel⟩
  · intro k e he
    have hlt : k < root.size := by
      rw [← length_traverse cos sin pi root (width / 2) (height / 2) 0 200 0 none]
      exact (List.getElem?_eq_some.1 he).1
    obtain ⟨path, sub, hsub, hidx⟩ := preIndex_surjective.1 root k hlt
    obtain ⟨k0, e0, hk0, he0, hnode0, hlevel0, hnil0, _⟩ :=
      traverse_path cos sin pi path root sub (width / 2) (height / 2) 0 200 0 none hsub
    rw [hidx] at hk0
    cases hk0
    rw [he] at he0
    cases he0
    refine ⟨path, by rw [hnode0]; exact hsub, hidx, by simpa using hlevel0, hnil0, ?_⟩
    intro hne
    obtain ⟨k2, e2, k1, q, hk2, he2, _, _, hk1, hq, hpar, hup, hlev, hleaf, hchild⟩ :=
      traverse_path_parent cos sin pi path root sub (width / 2) (height / 2) 0 200 0 none
        hsub hne
    rw [hidx] at hk2
    cases hk2
    rw [he] at he2
    cases he2
    exact ⟨k1, q, hk1, hq, hpar, hup, hchild, hlev, hleaf⟩

/-- C8, as stated, fails: for an absent root the error raised is the runtime's
`TypeError`, not an `InvalidInput` error. -/
theorem calculateNodePositions_absent_root_counterexample :
    calculateNodePositions Real.cos Real.sin Real.pi none 800 600
      = .error { name := "TypeError" } ∧
    calculateNodePositions Real.cos Real.sin Real.pi none 800 600
      ≠ .error { name := "InvalidInput" } := by
  refine ⟨rfl, ?_⟩
  intro h
  simp only [calculateNodePositions] at h
  injection h with h
  injection h with h
  exact absurd h (by decide)

/-- C8, amended: `calculateNodePositions` raises an error exactly when the root
is absent; the error is the runtime's `TypeError` of reading a property of the
absent root, and no list is returned.  For a present root it returns a list
with as many entries as the tree has nodes. -/
theorem calculateNodePositions_error_iff {α : Type} [Field α] (cos sin : α → α)
    (pi : α) (width height : α) :
    calculateNodePositions cos sin pi none width height
      = .error { name := "TypeError" } ∧
    (∀ root : TreeNode, ∃ ps,
      calculateNodePositions cos sin pi (some root) width height = .ok ps ∧
      ps.length = root.size) ∧
    (∀ rootNode : Option TreeNode,
      (∃ err, calculateNodePositions cos sin pi rootNode width height = .error err)
        ↔ rootNode = none) := by
  refine ⟨rfl, fun root => ⟨_, rfl, length_traverse cos sin pi root _ _ _ _ _ _⟩, ?_⟩
  intro rootNode
  cases rootNode with
  | none => exact ⟨fun _ => rfl, fun _ => ⟨_, rfl⟩⟩
  | some root => simp [calculateNodePositions]

section RenderLemmas

variable {α : Type} [Field α] (sqrt : α → α) (atan2 : α → α → α)

/-- The function `renderConnections` appends, in the order of the list, the
connection of each entry that has a `parent`, and nothing else. -/
theorem renderConnections_eq (positions : List (PositionedNode α)) :
    ∀ mindmapDiv : Surface α,
      renderConnections sqrt atan2 positions mindmapDiv =
        { children := mindmapDiv.children ++
            positions.filterMap (fun pos => pos.parent.map (connection sqrt atan2 pos)),
          calls := mindmapDiv.calls ++
            (positions.filterMap
              (fun pos => pos.parent.map (connection sqrt atan2 pos))).map
              SurfaceCall.appendChild } := by
  induction positions with
  | nil => intro mindmapDiv; simp [renderConnections]
  | cons pos positions ih =>
    intro mindmapDiv
    have hstep := ih
    unfold renderConnections at hstep ⊢
    rw [List.foldl_cons, hstep]
    cases hp : pos.parent with
    | none => simp [hp]
    | some parent => simp [hp, Surface.appendChild]

/-- The function `renderNodes` appends, in the order of the list, the node
element of each entry, and nothing else. -/
theorem renderNodes_eq {β : Type} (positions : List (PositionedNode β)) :
    ∀ mindmapDiv : Surface β,
      renderNodes positions mindmapDiv =
        { children := mindmapDiv.children ++ positions.map nodeElement,
          calls := mindmapDiv.calls ++
            (positions.map nodeElement).map SurfaceCall.appendChild } := by
  induction positions with
  | nil => intro mindmapDiv; simp [renderNodes]
  | cons pos positions ih =>
    intro mindmapDiv
    have hstep := ih
    unfold renderNodes at hstep ⊢
    rw [List.foldl_cons, hstep]
    simp [Surface.appendChild]

/-- In what a call of `traverse` with no `parent` returns, the entries that
have a `parent` are all but the first. -/
theorem length_filterMap_parent {β : Type} (cos sin : α → α) (pi : α) (root : TreeNode)
    (x y angle radius : α) (level : Nat) (f : PositionedNode α → PositionedNode α → β) :
    ((traverse cos sin pi root x y angle radius level none []).filterMap
      (fun pos => pos.parent.map (f pos))).length = root.size - 1 := by
  have hlen := length_traverse cos sin pi root x y angle radius level none
  have htail := (parent_isSome_traverse_forEachChild cos sin pi).1 root x y angle radius
    level none
  cases root with
  | mk t cs =>
    rw [traverse_nil] at hlen htail ⊢
    rw [List.tail_cons] at htail
    rw [List.filterMap_cons_none (by rfl)]
    rw [List.length_cons] at hlen
    have hall : ∀ l : List (PositionedNode α), (∀ e ∈ l, e.parent.isSome = true) →
        (l.filterMap (fun pos => pos.parent.map (f pos))).length = l.length := by
      intro l
      induction l with
      | nil => intro _; rfl
      | cons a l ih =>
        intro h
        have ha := h a (List.mem_cons_self a l)
        obtain ⟨q, hq⟩ := Option.isSome_iff_exists.1 ha
        rw [List.filterMap_cons]
        simp only [hq, Option.map_some']
        rw [List.length_cons, List.length_cons,
          ih (fun e he => h e (List.mem_cons_of_mem a he))]
    rw [hall _ htail]
    omega

end RenderLemmas

/-- C3: one render performs, after whatever was done to the surface before,
exactly one clear, then one `appendChild` of a connection for each entry that
has a `parent`, in the order of `positions`, then one `appendChild` of a node
element for each entry, in the order of `positions`, carrying the entry's
`level`, `node.text`, `x` and `y`; the surface then holds these elements and
nothing of its prior content.  `renderMindMap` is this sequence on the list
`calculateNodePositions` returns, which for a tree of `N` nodes has `N - 1`
connections and `N` node elements. -/
theorem renderMindMap_calls {α : Type} [Field α] (cos sin : α → α) (pi : α)
    (sqrt : α → α) (atan2 : α → α → α) :
    (∀ (positions : List (PositionedNode α)) (mindmapDiv : Surface α),
      (renderNodes positions
          (renderConnections sqrt atan2 positions mindmapDiv.clear)).calls
        = mindmapDiv.calls ++ [SurfaceCall.clear]
          ++ (positions.filterMap
                (fun pos => pos.parent.map (connection sqrt atan2 pos))).map
              SurfaceCall.appendChild
          ++ positions.map (fun pos => SurfaceCall.appendChild
              (Element.node pos.level pos.node.text pos.x pos.y pos.node))
      ∧ (renderNodes positions
          (renderConnections sqrt atan2 positions mindmapDiv.clear)).children
        = positions.filterMap (fun pos => pos.parent.map (connection sqrt atan2 pos))
          ++ positions.map (fun pos =>
              Element.node pos.level pos.node.text pos.x pos.y pos.node)) ∧
    (∀ (root : TreeNode) (width height : α) (mindmapDiv : Surface α),
      ∃ positions,
        calculateNodePositions cos sin pi (some root) width height = .ok positions ∧
        renderMindMap cos sin pi sqrt atan2 (some root) width height mindmapDiv
          = (renderNodes positions
              (renderConnections sqrt atan2 positions mindmapDiv.clear), none) ∧
        (positions.filterMap
          (fun pos => pos.parent.map (connection sqrt atan2 pos))).length
            = root.size - 1 ∧
        positions.length = root.size) := by
  refine ⟨?_, ?_⟩
  · intro positions mindmapDiv
    rw [renderNodes_eq, renderConnections_eq]
    simp [Surface.clear, nodeElement, Function.comp_def]
  · intro root width height mindmapDiv
    exact ⟨_, rfl, rfl, length_filterMap_parent cos sin pi root _ _ _ _ _ _,
      length_traverse cos sin pi root _ _ _ _ _ _⟩

/-- Sum of the first `n` indices, in a field of characteristic zero. -/
theorem sum_range_cast {α : Type} [Field α] [CharZero α] (n : Nat) :
    (∑ i in Finset.range n, (i : α)) = (n : α) * ((n : α) - 1) / 2 := by
  induction n with
  | zero => simp
  | succ n ih =>
    rw [Finset.sum_range_succ, ih]
    push_cast
    ring

/-- C5: take a node with `n ≥ 1` children, visited by `traverse` with incoming
angle `θ`.  The angle `childAngle` gives to index `i` is
`θ + (i - (n - 1) / 2) * (2π / n)`; the call of `traverse` for the child at
index `i` receives exactly this angle, and its coordinate is taken at this
angle; the arithmetic mean of these angles over `i = 0 .. n-1` is `θ`; an only
child is visited with the angle `θ` itself.  The root is visited with the
angle 0.  Numbers are those of any field of characteristic zero. -/
theorem childAngle_mean {α : Type} [Field α] [CharZero α] (cos sin : α → α) (pi θ : α)
    (t : String) (cs : List TreeNode) (x y radius : α) (level : Nat)
    (parent : Option (PositionedNode α)) (hn : 1 ≤ cs.length) :
    (∀ i : Nat, childAngle pi θ i cs.length
      = θ + ((i : α) - ((cs.length : α) - 1) / 2) * (pi * 2 / (cs.length : α))) ∧
    (∀ (i : Nat) (c : TreeNode), cs[i]? = some c → ∃ A B,
      traverse cos sin pi (.mk t cs) x y θ radius level parent []
        = .mk (.mk t cs) x y level parent ::
          (A ++ traverse cos sin pi c
              (x + cos (θ + ((i : α) - ((cs.length : α) - 1) / 2)
                * (pi * 2 / (cs.length : α))) * radius)
              (y + sin (θ + ((i : α) - ((cs.length : α) - 1) / 2)
                * (pi * 2 / (cs.length : α))) * radius)
              (θ + ((i : α) - ((cs.length : α) - 1) / 2) * (pi * 2 / (cs.length : α)))
              (radius * 0.7) (level + 1) (some (.mk (.mk t cs) x y level parent)) []
            ++ B) ∧
      A.length = sizeList (cs.take i)) ∧
    (∑ i in Finset.range cs.length,
        (θ + ((i : α) - ((cs.length : α) - 1) / 2) * (pi * 2 / (cs.length : α))))
      / (cs.length : α) = θ ∧
    (∀ c : TreeNode, cs = [c] →
      traverse cos sin pi (.mk t cs) x y θ radius level parent []
        = .mk (.mk t cs) x y level parent ::
          traverse cos sin pi c (x + cos θ * radius) (y + sin θ * radius) θ
            (radius * 0.7) (level + 1) (some (.mk (.mk t cs) x y level parent)) []) ∧
    (∀ (root : TreeNode) (width height : α),
      calculateNodePositions cos sin pi (some root) width height
        = .ok (traverse cos sin pi root (width / 2) (height / 2) 0 200 0 none [])) := by
  have hn0 : (cs.length : α) ≠ 0 := by
    have : 0 < cs.length := hn
    exact_mod_cast this.ne'
  have hform : ∀ i : Nat, childAngle pi θ i cs.length
      = θ + ((i : α) - ((cs.length : α) - 1) / 2) * (pi * 2 / (cs.length : α)) := by
    intro i
    simp only [childAngle, angleStep]
  refine ⟨hform, ?_, ?_, ?_, fun _ _ _ => rfl⟩
  · intro i c hc
    obtain ⟨A, B, hAB, hA⟩ := forEachChild_split cos sin pi cs i c hc 0 cs.length
      x y θ radius (radius * 0.7) level (.mk (.mk t cs) x y level parent)
    rw [Nat.zero_add, hform] at hAB
    exact ⟨A, B, by rw [traverse_nil, hAB], hA⟩
  · rw [Finset.sum_add_distrib, ← Finset.sum_mul, Finset.sum_sub_distrib, sum_range_cast]
    simp only [Finset.sum_const, Finset.card_range, nsmul_eq_mul]
    field_simp
  · intro c hc
    subst hc
    rw [traverse_nil, forEachChild_cons_nil]
    have h1 : childAngle pi θ 0 [c].length = θ := by
      simp [childAngle, angleStep]
    rw [h1]
    simp [forEachChild]

/-- Witness of `childAngle_mean`: a root with three leaves, visited at the
angle 1 with real numbers. -/
theorem childAngle_mean_witness :
    1 ≤ [TreeNode.mk "a" [], TreeNode.mk "b" [], TreeNode.mk "c" []].length ∧
    (∑ i in Finset.range
          [TreeNode.mk "a" [], TreeNode.mk "b" [], TreeNode.mk "c" []].length,
        ((1 : ℝ) + ((i : ℝ)
          - (([TreeNode.mk "a" [], TreeNode.mk "b" [], TreeNode.mk "c" []].length : ℝ) - 1)
            / 2)
          * (Real.pi * 2
            / ([TreeNode.mk "a" [], TreeNode.mk "b" [], TreeNode.mk "c" []].length : ℝ))))
      / ([TreeNode.mk "a" [], TreeNode.mk "b" [], TreeNode.mk "c" []].length : ℝ) = 1 :=
  ⟨by decide,
    (childAngle_mean Real.cos Real.sin Real.pi 1 "r"
      [TreeNode.mk "a" [], TreeNode.mk "b" [], TreeNode.mk "c" []] 400 300 200 0 none
      (by decide)).2.2.1⟩

/-- C6: the connection `renderConnections` builds for an entry starts at the
parent's coordinate, has the Euclidean distance of the two coordinates as
length, and, followed for that length along its rotation, ends exactly at the
entry's coordinate (also when the two coordinates coincide).  `Math.atan2(dy,
dx)` is the argument of the point `(dx, dy)`. -/
theorem connection_endpoint (pos parent : PositionedNode ℝ) :
    ∃ width left top rotate,
      connection Real.sqrt (fun dy dx => Complex.arg ⟨dx, dy⟩) pos parent
        = .connection width left top rotate ∧
      left = parent.x ∧ top = parent.y ∧
      width = Real.sqrt ((pos.x - parent.x) ^ 2 + (pos.y - parent.y) ^ 2) ∧
      left + width * Real.cos rotate = pos.x ∧
      top + width * Real.sin rotate = pos.y := by
  refine ⟨_, _, _, _, rfl, rfl, rfl, ?_, ?_, ?_⟩
  · simp only [pow_two]
  · have h := Complex.abs_mul_cos_arg ⟨pos.x - parent.x, pos.y - parent.y⟩
    rw [Complex.abs_apply, Complex.normSq_apply] at h
    simp only at h
    rw [h]
    ring
  · have h := Complex.abs_mul_sin_arg ⟨pos.x - parent.x, pos.y - parent.y⟩
    rw [Complex.abs_apply, Complex.normSq_apply] at h
    simp only at h
    rw [h]
    ring

/-- The first of two children is sent off at a quarter turn back. -/
theorem childAngle_two_zero : childAngle Real.pi 0 0 2 = -(Real.pi / 2) := by
  simp only [childAngle, angleStep]
  push_cast
  ring

/-- The second of two children is sent off at a quarter turn forward. -/
theorem childAngle_two_one : childAngle Real.pi 0 (0 + 1) 2 = Real.pi / 2 := by
  simp only [childAngle, angleStep]
  push_cast
  ring

/-- C7: on an 800 by 600 surface a root with two leaf children yields the root
at (400, 300), level 0, no parent, then the first child at (400, 100) and the
second at (400, 500), both at level 1 with the root entry as parent; whatever
the two children are, their own calls receive the radius 140.  On every
surface the root entry is at (width / 2, height / 2). -/
theorem calculateNodePositions_two_children :
    (∀ a b c : String,
      calculateNodePositions Real.cos Real.sin Real.pi
          (some (.mk a [.mk b [], .mk c []])) 800 600
        = .ok [.mk (.mk a [.mk b [], .mk c []]) 400 300 0 none,
            .mk (.mk b []) 400 100 1 (some (.mk (.mk a [.mk b [], .mk c []]) 400 300 0 none)),
            .mk (.mk c []) 400 500 1
              (some (.mk (.mk a [.mk b [], .mk c []]) 400 300 0 none))]) ∧
    (∀ (a : String) (c1 c2 : TreeNode),
      calculateNodePositions Real.cos Real.sin Real.pi (some (.mk a [c1, c2])) 800 600
        = .ok (.mk (.mk a [c1, c2]) 400 300 0 none ::
            (traverse Real.cos Real.sin Real.pi c1 400 100 (-(Real.pi / 2)) 140 1
                (some (.mk (.mk a [c1, c2]) 400 300 0 none)) []
              ++ traverse Real.cos Real.sin Real.pi c2 400 500 (Real.pi / 2) 140 1
                (some (.mk (.mk a [c1, c2]) 400 300 0 none)) []))) ∧
    (∀ (root : TreeNode) (width height : ℝ), ∃ rest,
      calculateNodePositions Real.cos Real.sin Real.pi (some root) width height
        = .ok (.mk root (width / 2) (height / 2) 0 none :: rest)) := by
  have hgen : ∀ (a : String) (c1 c2 : TreeNode),
      calculateNodePositions Real.cos Real.sin Real.pi (some (.mk a [c1, c2])) 800 600
        = .ok (.mk (.mk a [c1, c2]) 400 300 0 none ::
            (traverse Real.cos Real.sin Real.pi c1 400 100 (-(Real.pi / 2)) 140 1
                (some (.mk (.mk a [c1, c2]) 400 300 0 none)) []
              ++ traverse Real.cos Real.sin Real.pi c2 400 500 (Real.pi / 2) 140 1
                (some (.mk (.mk a [c1, c2]) 400 300 0 none)) [])) := by
    intro a c1 c2
    have hx : (800 : ℝ) / 2 = 400 := by norm_num
    have hy : (600 : ℝ) / 2 = 300 := by norm_num
    have hr : (200 : ℝ) * 0.7 = 140 := by norm_num
    have h1x : (400 : ℝ) + Real.cos (-(Real.pi / 2)) * 200 = 400 := by
      rw [Real.cos_neg, Real.cos_pi_div_two]; norm_num
    have h1y : (300 : ℝ) + Real.sin (-(Real.pi / 2)) * 200 = 100 := by
      rw [Real.sin_neg, Real.sin_pi_div_two]; norm_num
    have h2x : (400 : ℝ) + Real.cos (Real.pi / 2) * 200 = 400 := by
      rw [Real.cos_pi_div_two]; norm_num
    have h2y : (300 : ℝ) + Real.sin (Real.pi / 2) * 200 = 500 := by
      rw [Real.sin_pi_div_two]; norm_num
    simp only [calculateNodePositions]
    rw [traverse_nil, forEachChild_cons_nil, forEachChild_cons_nil]
    simp only [forEachChild, List.length_cons, List.length_nil, Nat.zero_add,
      Nat.reduceAdd, List.append_nil]
    rw [hx, hy, hr, childAngle_two_zero, childAngle_two_one, h1x, h1y, h2x, h2y]
  refine ⟨?_, hgen, ?_⟩
  · intro a b c
    rw [hgen, traverse_nil, traverse_nil]
    simp [forEachChild]
  · intro root width height
    cases root with
    | mk t cs =>
      simp only [calculateNodePositions]
      rw [traverse_nil]
      exact ⟨_, rfl⟩

/-- A point at angle `a` and distance `r ≥ 0` from `(x, y)` is at Euclidean
distance `r` from it. -/
theorem sqrt_polar (x y a r : ℝ) (hr : 0 ≤ r) :
    Real.sqrt ((x + Real.cos a * r - x) ^ 2 + (y + Real.sin a * r - y) ^ 2) = r := by
  have h : (x + Real.cos a * r - x) ^ 2 + (y + Real.sin a * r - y) ^ 2 = r ^ 2 := by
    have := Real.cos_sq_add_sin_sq a
    nlinarith [this]
  rw [h, Real.sqrt_sq hr]

/-- Triangle inequality for the Euclidean distance written with `Real.sqrt`. -/
theorem sqrt_triangle (x1 y1 x2 y2 x3 y3 : ℝ) :
    Real.sqrt ((x1 - x3) ^ 2 + (y1 - y3) ^ 2)
      ≤ Real.sqrt ((x1 - x2) ^ 2 + (y1 - y2) ^ 2)
        + Real.sqrt ((x2 - x3) ^ 2 + (y2 - y3) ^ 2) := by
  have h := Complex.abs.add_le ⟨x1 - x2, y1 - y2⟩ ⟨x2 - x3, y2 - y3⟩
  simp only [Complex.abs_apply, Complex.normSq_apply] at h
  have e1 : (⟨x1 - x2, y1 - y2⟩ + ⟨x2 - x3, y2 - y3⟩ : ℂ) = ⟨x1 - x3, y1 - y3⟩ := by
    apply Complex.ext <;> simp
  rw [e1] at h
  simp only [pow_two]
  exact h

/-- Every entry after the first one of a call with radius `r` at level `l` has
a `parent` entry, at some level `L ≥ l`, from which it is at distance
`r * 0.7 ^ (L - l)`. -/
theorem parent_distance_traverse_forEachChild :
    (∀ (node : TreeNode) (x y angle radius : ℝ) (level : Nat) parent, 0 ≤ radius →
      ∀ e ∈ (traverse Real.cos Real.sin Real.pi node x y angle radius level parent []).tail,
        ∃ q, e.parent = some q ∧ level ≤ q.level ∧
          Real.sqrt ((e.x - q.x) ^ 2 + (e.y - q.y) ^ 2)
            = radius * 0.7 ^ (q.level - level)) ∧
    (∀ (rest : List TreeNode) index childCount (x y angle radius : ℝ) (level : Nat)
        parent node, 0 ≤ radius →
      ∀ e ∈ forEachChild Real.cos Real.sin Real.pi rest index childCount x y angle radius
          (radius * 0.7) level (.mk node x y level parent) [],
        ∃ q, e.parent = some q ∧ level ≤ q.level ∧
          Real.sqrt ((e.x - q.x) ^ 2 + (e.y - q.y) ^ 2)
            = radius * 0.7 ^ (q.level - level)) := by
  apply TreeNode.both
  · intro t cs ih x y angle radius level parent hr e he
    rw [traverse_nil, List.tail_cons] at he
    exact ih _ _ _ _ _ _ _ _ _ hr e he
  · intro index childCount x y angle radius level parent node _ e he
    simp [forEachChild] at he
  · intro c cs ihc ihcs index childCount x y angle radius level parent node hr e he
    rw [forEachChild_cons_nil, List.mem_append] at he
    rcases he with he | he
    · cases c with
      | mk t ds =>
        have hr7 : (0 : ℝ) ≤ radius * 0.7 := by positivity
        have hc := ihc (x + Real.cos (childAngle Real.pi angle index childCount) * radius)
          (y + Real.sin (childAngle Real.pi angle index childCount) * radius)
          (childAngle Real.pi angle index childCount) (radius * 0.7) (level + 1)
          (some (.mk node x y level parent)) hr7 e
        rw [traverse_nil] at he hc
        rw [List.mem_cons] at he
        rcases he with he | he
        · subst he
          refine ⟨.mk node x y level parent, rfl, le_refl _, ?_⟩
          simp only [PositionedNode.x, PositionedNode.y, PositionedNode.level,
            Nat.sub_self, pow_zero, mul_one]
          exact sqrt_polar x y _ radius hr
        · obtain ⟨q, hq, hl, hd⟩ := hc he
          refine ⟨q, hq, by omega, ?_⟩
          rw [hd]
          have : q.level - level = (q.level - (level + 1)) + 1 := by omega
          rw [this, pow_succ]
          ring
    · exact ihcs _ _ _ _ _ _ _ _ _ hr e he

/-- Every entry of a call with radius `r` at level `l` and coordinate `(x, y)`
is at a level `L ≥ l` and within `r * (1 - 0.7 ^ (L - l)) / (1 - 0.7)` of
`(x, y)`. -/
theorem bounded_traverse_forEachChild :
    (∀ (node : TreeNode) (x y angle radius : ℝ) (level : Nat) parent, 0 ≤ radius →
      ∀ e ∈ traverse Real.cos Real.sin Real.pi node x y angle radius level parent [],
        level ≤ e.level ∧
          Real.sqrt ((e.x - x) ^ 2 + (e.y - y) ^ 2)
            ≤ radius * (1 - 0.7 ^ (e.level - level)) / (1 - 0.7)) ∧
    (∀ (rest : List TreeNode) index childCount (x y angle radius : ℝ) (level : Nat)
        pos, 0 ≤ radius →
      ∀ e ∈ forEachChild Real.cos Real.sin Real.pi rest index childCount x y angle radius
          (radius * 0.7) level pos [],
        level + 1 ≤ e.level ∧
          Real.sqrt ((e.x - x) ^ 2 + (e.y - y) ^ 2)
            ≤ radius * (1 - 0.7 ^ (e.level - level)) / (1 - 0.7)) := by
  apply TreeNode.both
  · intro t cs ih x y angle radius level parent hr e he
    rw [traverse_nil, List.mem_cons] at he
    rcases he with he | he
    · subst he
      simp [PositionedNode.x, PositionedNode.y, PositionedNode.level]
    · obtain ⟨h1, h2⟩ := ih _ _ _ _ _ _ _ _ hr e he
      exact ⟨by omega, h2⟩
  · intro index childCount x y angle radius level pos _ e he
    simp [forEachChild] at he
  · intro c cs ihc ihcs index childCount x y angle radius level pos hr e he
    rw [forEachChild_cons_nil, List.mem_append] at he
    rcases he with he | he
    · have hr7 : (0 : ℝ) ≤ radius * 0.7 := by positivity
      obtain ⟨h1, h2⟩ := ihc _ _ _ _ _ _ hr7 e he
      refine ⟨h1, ?_⟩
      have htri := sqrt_triangle e.x e.y
        (x + Real.cos (childAngle Real.pi angle index childCount) * radius)
        (y + Real.sin (childAngle Real.pi angle index childCount) * radius) x y
      rw [sqrt_polar x y _ radius hr] at htri
      have hpow : (0.7 : ℝ) ^ (e.level - level)
          = 0.7 ^ (e.level - (level + 1)) * 0.7 := by
        have : e.level - level = (e.level - (level + 1)) + 1 := by omega
        rw [this, pow_succ]
      rw [hpow]
      have hgoal : radius * 0.7 * (1 - 0.7 ^ (e.level - (level + 1))) / (1 - 0.7) + radius
          = radius * (1 - 0.7 ^ (e.level - (level + 1)) * 0.7) / (1 - 0.7) := by
        have h3 : (1 - 0.7 : ℝ) ≠ 0 := by norm_num
        field_simp
        ring
      linarith
    · exact ihcs _ _ _ _ _ _ _ _ hr e he

/-- C4: in the list `calculateNodePositions` returns, computed with real
numbers, every entry with a `parent` is at Euclidean distance exactly
`200 * 0.7 ^ L` from it, `L` being the parent's level; so for every node at
depth `L` of the tree each of its children is placed at that distance from
it, whatever their number and angles.  The radius `200 * 0.7 ^ L` is positive
at every level. -/
theorem calculateNodePositions_child_distance (root : TreeNode) (width height : ℝ) :
    ∃ ps, calculateNodePositions Real.cos Real.sin Real.pi (some root) width height
        = .ok ps ∧
      (∀ e ∈ ps, ∀ q, e.parent = some q →
        Real.sqrt ((e.x - q.x) ^ 2 + (e.y - q.y) ^ 2) = 200 * 0.7 ^ q.level) ∧
      (∀ (path : List Nat) (i : Nat) (child : TreeNode),
        root.subtreeAt (path ++ [i]) = some child →
        ∃ kq q kc e, root.preIndex path = some kq ∧ ps[kq]? = some q ∧
          root.preIndex (path ++ [i]) = some kc ∧ ps[kc]? = some e ∧
          root.subtreeAt path = some q.node ∧ e.node = child ∧
          q.level = path.length ∧
          Real.sqrt ((e.x - q.x) ^ 2 + (e.y - q.y) ^ 2) = 200 * 0.7 ^ path.length) ∧
      (∀ L : Nat, (0 : ℝ) < 200 * 0.7 ^ L) := by
  have hfirst : ∀ e ∈ traverse Real.cos Real.sin Real.pi root (width / 2) (height / 2)
      0 200 0 none [], ∀ q, e.parent = some q →
        Real.sqrt ((e.x - q.x) ^ 2 + (e.y - q.y) ^ 2) = 200 * 0.7 ^ q.level := by
    intro e he q hq
    have htail := parent_distance_traverse_forEachChild.1 root (width / 2) (height / 2)
      0 200 0 none (by norm_num) e
    cases root with
    | mk t cs =>
      rw [traverse_nil] at he htail
      rw [List.tail_cons] at htail
      rw [List.mem_cons] at he
      rcases he with he | he
      · subst he
        simp [PositionedNode.parent] at hq
      · obtain ⟨q1, hq1, -, hd⟩ := htail he
        rw [hq] at hq1
        cases hq1
        simpa using hd
  refine ⟨_, rfl, hfirst, ?_, ?_⟩
  · intro path i child hsub
    obtain ⟨kc, e, kq, q, hkc, he, hnode, hlevel, hkq, hq, hpar, hup, hlev, -, -⟩ :=
      traverse_path_parent Real.cos Real.sin Real.pi (path ++ [i]) root child
        (width / 2) (height / 2) 0 200 0 none hsub (by simp)
    rw [List.dropLast_concat] at hkq hup
    have hql : q.level = path.length := by
      rw [hlevel] at hlev
      simp at hlev
      omega
    refine ⟨kq, q, kc, e, hkq, hq, hkc, he, hup, hnode, hql, ?_⟩
    rw [← hql]
    exact hfirst e (List.getElem?_mem he) q hpar
  · intro L
    positivity

/-- C10: in the list `calculateNodePositions` returns, computed with real
numbers, every entry at level `L` lies within
`200 * (1 - 0.7 ^ L) / (1 - 0.7)` of the root entry, which is the first one and
sits at `(width / 2, height / 2)`; hence within less than `2000 / 3` of it,
whatever the depth and the branching of the tree. -/
theorem calculateNodePositions_bounded (root : TreeNode) (width height : ℝ) :
    ∃ r rest, calculateNodePositions Real.cos Real.sin Real.pi (some root) width height
        = .ok (r :: rest) ∧
      r.node = root ∧ r.x = width / 2 ∧ r.y = height / 2 ∧
      ∀ e ∈ r :: rest,
        Real.sqrt ((e.x - r.x) ^ 2 + (e.y - r.y) ^ 2)
            ≤ 200 * (1 - 0.7 ^ e.level) / (1 - 0.7) ∧
        Real.sqrt ((e.x - r.x) ^ 2 + (e.y - r.y) ^ 2) < 2000 / 3 := by
  have hb := bounded_traverse_forEachChild.1 root (width / 2) (height / 2) 0 200 0 none
    (by norm_num)
  cases root with
  | mk t cs =>
    rw [traverse_nil] at hb
    refine ⟨.mk (.mk t cs) (width / 2) (height / 2) 0 none, _,
      by simp only [calculateNodePositions]; rw [traverse_nil], rfl, rfl, rfl, ?_⟩
    intro e he
    obtain ⟨-, h2⟩ := hb e he
    simp only [Nat.sub_zero] at h2
    simp only [PositionedNode.x, PositionedNode.y]
    refine ⟨h2, lt_of_le_of_lt h2 ?_⟩
    have hpos : (0 : ℝ) < 0.7 ^ e.level := by positivity
    have h3 : (200 : ℝ) * (1 - 0.7 ^ e.level) / (1 - 0.7)
        = 2000 / 3 - 2000 / 3 * 0.7 ^ e.level := by
      norm_num
      ring
    rw [h3]
    linarith

/-- C9, as stated, fails: on a surface of width 0 and height 0 the only child
of a root is placed at `(200, 0)`, not at the origin. -/
theorem calculateNodePositions_origin_counterexample :
    calculateNodePositions Real.cos Real.sin Real.pi
        (some (.mk "a" [.mk "b" []])) 0 0
      = .ok [.mk (.mk "a" [.mk "b" []]) 0 0 0 none,
          .mk (.mk "b" []) 200 0 1 (some (.mk (.mk "a" [.mk "b" []]) 0 0 0 none))] ∧
    ¬ (∀ e ∈ [PositionedNode.mk (.mk "a" [.mk "b" []]) (0 : ℝ) 0 0 none,
          .mk (.mk "b" []) 200 0 1 (some (.mk (.mk "a" [.mk "b" []]) 0 0 0 none))],
        e.x = 0 ∧ e.y = 0) := by
  constructor
  · have ha : childAngle Real.pi 0 0 1 = 0 := by simp [childAngle, angleStep]
    simp only [calculateNodePositions]
    rw [traverse_nil, forEachChild_cons_nil, traverse_nil]
    simp only [forEachChild, List.length_cons, List.length_nil, Nat.zero_add,
      List.append_nil]
    rw [ha, Real.cos_zero, Real.sin_zero]
    norm_num
  · intro h
    have := (h _ (List.mem_cons_of_mem _ (List.mem_cons_self _ _))).1
    simp [PositionedNode.x] at this

/-- C9, amended: on a surface of width 0 and height 0 the root entry, the
first one, is at the origin; all entries are at the origin exactly when the
root has no children. -/
theorem calculateNodePositions_origin (root : TreeNode) :
    ∃ r rest, calculateNodePositions Real.cos Real.sin Real.pi (some root) 0 0
        = .ok (r :: rest) ∧
      r.node = root ∧ r.x = 0 ∧ r.y = 0 ∧
      ((∀ e ∈ r :: rest, e.x = 0 ∧ e.y = 0) ↔ root.children = []) := by
  cases root with
  | mk t cs =>
    refine ⟨.mk (.mk t cs) (0 / 2) (0 / 2) 0 none, _,
      by simp only [calculateNodePositions]; rw [traverse_nil], rfl,
      by simp [PositionedNode.x], by simp [PositionedNode.y], ?_⟩
    cases cs with
    | nil => simp [forEachChild, TreeNode.children, PositionedNode.x, PositionedNode.y]
    | cons c cs =>
      simp only [TreeNode.children]
      constructor
      · intro h
        exfalso
        cases c with
        | mk u ds =>
          rw [forEachChild_cons_nil, traverse_nil] at h
          have h1 := h _ (List.mem_cons_of_mem _
            (List.mem_append_left _ (List.mem_cons_self _ _)))
          simp only [PositionedNode.x, PositionedNode.y] at h1
          obtain ⟨hx, hy⟩ := h1
          simp at hx hy
          have hcs := Real.cos_sq_add_sin_sq (childAngle Real.pi 0 0 (cs.length + 1))
          rw [hx, hy] at hcs
          norm_num at hcs
      · intro h
        simp at h

end Forge
